import Mathlib

/-!
Shallow embedding of the fmdtools phase-analysis, parameter, and timer code
(`fmdtools/analyze/phases.py`, `fmdtools/define/container/parameter.py`,
`fmdtools/define/object/timer.py`), with theorems settling the specification
claims about it.

Python dicts are modelled as association lists in insertion order, Python
floats as rationals, raised exceptions as `Except.error`, and `np.arange` /
`np.sort` / `set` as explicit list operations.
-/

namespace Fmd

/-- Times `a, a + step, a + 2 step, ...` strictly below `b`, as computed by
`np.arange(a, b, step)` for a positive step: the element count is
`⌈(b - a) / step⌉`. -/
def arange (a b step : ℚ) : List ℚ :=
  (List.range (Int.toNat ⌈(b - a) / step⌉)).map (fun k : ℕ => a + (k : ℚ) * step)

/-- Embeds `gen_interval_times(interval, dt)`: `np.arange(interval[0], interval[-1] + dt, dt)`
for a two-element interval `[start, end]`. -/
def gen_interval_times (interval : ℚ × ℚ) (dt : ℚ) : List ℚ :=
  arange interval.1 (interval.2 + dt) dt

/-- Overwrite-or-append update of an association list, as Python dict assignment
`d[k] = v` behaves (keeps the original key position on overwrite). -/
def dictUpdate {β : Type} : List (String × β) → String → β → List (String × β)
  | [], k, v => [(k, v)]
  | (a, b) :: rest, k, v =>
    if a = k then (a, v) :: rest else (a, b) :: dictUpdate rest k v

/-- Builds a Python-dict association list from a sequence of key-value pairs
(later pairs overwrite earlier ones in place), as a dict comprehension does. -/
def dictOfList {β : Type} (l : List (String × β)) : List (String × β) :=
  l.foldl (fun acc p => dictUpdate acc p.1 p.2) []

/-- Python dict lookup `d[k]` on an association list: value at the first
matching key, or `none` (a KeyError) when the key is absent. -/
def assocLookup {β : Type} : List (String × β) → String → Option β
  | [], _ => none
  | (a, b) :: rest, k => if a = k then some b else assocLookup rest k

/-- Embeds the `PhaseMap` object state set by `PhaseMap.__init__`: the `phases`
dict (name to `[starttime, endtime]`), the `modephases` dict (mode name to set
of phase names), and the timestep `dt`. -/
structure PhaseMap where
  phases : List (String × ℚ × ℚ)
  modephases : List (String × List String)
  dt : ℚ

/-- Embeds the tuple branch of `PhaseMap.__init__`: a tuple of
`(name, start, end)` triples is converted to the phases dict by the
comprehension `{ph[0]: [ph[1], ph[2]] for ph in phases}`. Construction performs
no other computation and cannot fail. -/
def PhaseMap.ofTuples (tuples : List (String × ℚ × ℚ))
    (modephases : List (String × List String)) (dt : ℚ) : PhaseMap :=
  ⟨dictOfList tuples, modephases, dt⟩

/-- Loop body of `PhaseMap.find_phase`: scan the phases dict in order for the
first entry with `times[0] <= time < times[1] + dt`; raise if none matches. -/
def findPhaseIn : List (String × ℚ × ℚ) → ℚ → ℚ → Except String String
  | [], _, _ => Except.error "time not in phases"
  | p :: rest, time, dt =>
    if p.2.1 ≤ time ∧ time < p.2.2 + dt then Except.ok p.1
    else findPhaseIn rest time dt

/-- Embeds `PhaseMap.find_phase(time, dt=1.0)`. Note the containment bound uses
the `dt` argument (default `1.0`), not the `self.dt` field. -/
def PhaseMap.find_phase (pm : PhaseMap) (time dt : ℚ) : Except String String :=
  findPhaseIn pm.phases time dt

/-- Loop body of `PhaseMap.find_modephase`: scan the modephases dict in order
for the first mode whose phase set contains `phase`; raise if none does. -/
def findModephaseIn : List (String × List String) → String → Except String String
  | [], _ => Except.error "Phase not in modephases"
  | m :: rest, phase =>
    if phase ∈ m.2 then Except.ok m.1 else findModephaseIn rest phase

/-- Embeds `PhaseMap.find_modephase(phase)`. -/
def PhaseMap.find_modephase (pm : PhaseMap) (phase : String) : Except String String :=
  findModephaseIn pm.modephases phase

/-- Embeds `PhaseMap.find_base_phase(time)`: `find_phase` (with its default
`dt=1.0`), then `find_modephase` if a modephase grouping is present. -/
def PhaseMap.find_base_phase (pm : PhaseMap) (time : ℚ) : Except String String :=
  match pm.find_phase time 1 with
  | Except.error e => Except.error e
  | Except.ok ph =>
    if pm.modephases = [] then Except.ok ph else pm.find_modephase ph

/-- Embeds the dict increment `phase_times[phase] += 1` of
`calc_samples_in_phases`: raises a KeyError if the key is absent. -/
def bumpCount : List (String × Nat) → String → Except String (List (String × Nat))
  | [], k => Except.error ("KeyError: " ++ k)
  | (a, n) :: rest, k =>
    if a = k then Except.ok ((a, n + 1) :: rest)
    else
      match bumpCount rest k with
      | Except.error e => Except.error e
      | Except.ok r => Except.ok ((a, n) :: r)

/-- Loop of `PhaseMap.calc_samples_in_phases`: for each time, find its phase
(default `dt=1.0`), lift it to a modephase when a grouping is present, and
increment that entry of the counts dict. -/
def samplesLoop (pm : PhaseMap) : List ℚ → List (String × Nat) →
    Except String (List (String × Nat))
  | [], acc => Except.ok acc
  | t :: ts, acc =>
    match pm.find_base_phase t with
    | Except.error e => Except.error e
    | Except.ok ph =>
      match bumpCount acc ph with
      | Except.error e => Except.error e
      | Except.ok acc2 => samplesLoop pm ts acc2

/-- Embeds `PhaseMap.calc_samples_in_phases(*times)`: initializes a zero count
for every modephase (if any, else every phase) and runs the counting loop. -/
def PhaseMap.calc_samples_in_phases (pm : PhaseMap) (times : List ℚ) :
    Except String (List (String × Nat)) :=
  let keys := if pm.modephases = [] then pm.phases.map (fun p => p.1)
              else pm.modephases.map (fun m => m.1)
  samplesLoop pm times (keys.map (fun k => (k, 0)))

/-- Embeds `PhaseMap.calc_phase_time(phase)`: looks up
`self.phases[phase] = [start, end]` (KeyError if absent) and returns
`end - start + self.dt`. -/
def PhaseMap.calc_phase_time (pm : PhaseMap) (phase : String) : Except String ℚ :=
  match assocLookup pm.phases phase with
  | some iv => Except.ok (iv.2 - iv.1 + pm.dt)
  | none => Except.error ("KeyError: " ++ phase)

/-- Sum of `calc_phase_time` over a list of phase names, as the comprehension
`sum([self.calc_phase_time(mode_phase) for mode_phase in ...])` computes it
(any KeyError propagates). -/
def sumPhaseTimes (pm : PhaseMap) : List String → Except String ℚ
  | [] => Except.ok 0
  | ph :: rest =>
    match pm.calc_phase_time ph with
    | Except.error e => Except.error e
    | Except.ok t =>
      match sumPhaseTimes pm rest with
      | Except.error e => Except.error e
      | Except.ok s => Except.ok (t + s)

/-- Embeds `PhaseMap.calc_modephase_time(modephase)`: sums `calc_phase_time`
over the phases in `self.modephases[modephase]`. -/
def PhaseMap.calc_modephase_time (pm : PhaseMap) (modephase : String) :
    Except String ℚ :=
  match assocLookup pm.modephases modephase with
  | some phs => sumPhaseTimes pm phs
  | none => Except.error ("KeyError: " ++ modephase)

/-- Embeds `PhaseMap.calc_scen_exposure_time(time)`: finds the phase of `time`
(with `find_phase`'s default `dt=1.0`), then the duration of the containing
modephase if a grouping is present, else of the phase itself. -/
def PhaseMap.calc_scen_exposure_time (pm : PhaseMap) (time : ℚ) :
    Except String ℚ :=
  match pm.find_phase time 1 with
  | Except.error e => Except.error e
  | Except.ok phase =>
    if pm.modephases = [] then pm.calc_phase_time phase
    else
      match pm.find_modephase phase with
      | Except.error e => Except.error e
      | Except.ok mph => pm.calc_modephase_time mph

/-- Collects `self.phases[ph]` for each phase of a modephase, raising a
KeyError on the first phase missing from the phases dict. -/
def collectIntervals (pm : PhaseMap) : List String → Except String (List (ℚ × ℚ))
  | [] => Except.ok []
  | ph :: rest =>
    match assocLookup pm.phases ph with
    | none => Except.error ("KeyError: " ++ ph)
    | some iv =>
      match collectIntervals pm rest with
      | Except.error e => Except.error e
      | Except.ok ivs => Except.ok (iv :: ivs)

/-- Embeds `PhaseMap.get_phase_times(phase)`: the intervals of the phases of a
modephase (or of the single phase), their times via `gen_interval_times`,
concatenated (`np.concatenate`, which raises on an empty list), deduplicated
(`set`) and sorted. A name in neither dict leaves the `intervals` local unbound
and raises a NameError. -/
def PhaseMap.get_phase_times (pm : PhaseMap) (phase : String) :
    Except String (List ℚ) :=
  match
    (match assocLookup pm.modephases phase with
     | some phs => collectIntervals pm phs
     | none =>
       match assocLookup pm.phases phase with
       | some iv => Except.ok [iv]
       | none => Except.error "NameError: intervals referenced before assignment")
  with
  | Except.error e => Except.error e
  | Except.ok intervals =>
    if intervals = [] then
      Except.error "ValueError: need at least one array to concatenate"
    else
      Except.ok
        (((intervals.map (fun iv => gen_interval_times iv pm.dt)).flatten.dedup).insertionSort
          (fun a b => a ≤ b))

/-- Loop of `PhaseMap.get_sample_times`: pairs each requested name with its
`get_phase_times`. -/
def sampleTimesLoop (pm : PhaseMap) : List String →
    Except String (List (String × List ℚ))
  | [] => Except.ok []
  | ph :: rest =>
    match pm.get_phase_times ph with
    | Except.error e => Except.error e
    | Except.ok ts =>
      match sampleTimesLoop pm rest with
      | Except.error e => Except.error e
      | Except.ok pairs => Except.ok ((ph, ts) :: pairs)

/-- Embeds `PhaseMap.get_sample_times(*phases_to_sample)`: defaults the name
list to all modephases when a grouping is present, else to all phases, then
builds the dict of each name's `get_phase_times`. -/
def PhaseMap.get_sample_times (pm : PhaseMap) (phases_to_sample : List String) :
    Except String (List (String × List ℚ)) :=
  let names := if phases_to_sample = [] then
      (if pm.modephases ≠ [] then pm.modephases.map (fun m => m.1)
       else if pm.phases ≠ [] then pm.phases.map (fun p => p.1)
       else [])
    else phases_to_sample
  match sampleTimesLoop pm names with
  | Except.error e => Except.error e
  | Except.ok pairs => Except.ok (dictOfList pairs)

/-- Closed intervals `[iv1.1, iv1.2]` and `[iv2.1, iv2.2]` intersect. For
well-formed intervals this is the usual notion of two phases overlapping in
time (touching endpoints count as overlap, matching the source's
`int_low[i+1] <= int_high[i]` test and its message
"Ensure max of each phase < min of each other phase"). -/
def intervalsOverlap (iv1 iv2 : ℚ × ℚ) : Prop :=
  iv1.1 ≤ iv2.2 ∧ iv2.1 ≤ iv1.2

/-- The `int_low` array of `SimParam.find_any_phase_overlap`:
`np.sort([i[0] for i in intervals])`. -/
def sortedLows (intervals : List (ℚ × ℚ)) : List ℚ :=
  (intervals.map (fun iv => iv.1)).insertionSort (fun a b => a ≤ b)

/-- The `int_high` array of `SimParam.find_any_phase_overlap`:
`np.sort([i[1] for i in intervals])` (every interval has two entries, so the
`len(i) == 2` test always takes the first branch). -/
def sortedHighs (intervals : List (ℚ × ℚ)) : List ℚ :=
  (intervals.map (fun iv => iv.2)).insertionSort (fun a b => a ≤ b)

/-- The loop of `SimParam.find_any_phase_overlap`: scans `i = 0 .. n-2`
(breaking at `i+1 == len(int_low)`) and fires when
`int_low[i+1] <= int_high[i]`. -/
def overlapErr (intervals : List (ℚ × ℚ)) : Bool :=
  ((sortedHighs intervals).zip (sortedLows intervals).tail).any
    (fun p => decide (p.2 ≤ p.1))

/-- Embeds `SimParam.find_any_phase_overlap`: rebuilds the phase dict from the
`(name, start, end)` tuples, takes its intervals, and raises when the sorted
starts/ends scan fires. -/
def find_any_phase_overlap (phases : List (String × ℚ × ℚ)) : Except String Unit :=
  if overlapErr ((dictOfList phases).map (fun p => p.2)) then
    Except.error "Global phases overlap"
  else Except.ok ()

/-- Embeds the `SimParam` state relevant to phase checking: the phases tuple,
sample times and timestep. -/
structure SimParam where
  phases : List (String × ℚ × ℚ)
  times : List ℚ
  dt : ℚ

/-- Embeds `SimParam.__init__` (given explicit phases): field assignment, then
`self.find_any_phase_overlap()`, whose exception aborts construction. -/
def SimParam.init (phases : List (String × ℚ × ℚ)) (times : List ℚ) (dt : ℚ) :
    Except String SimParam :=
  match find_any_phase_overlap phases with
  | Except.error e => Except.error e
  | Except.ok _ => Except.ok ⟨phases, times, dt⟩

/-- Embeds the `Timer` object state (`name` is irrelevant to the claims):
`time`, the per-step increment `tstep`, and the `mode` string. -/
structure Timer where
  time : ℚ
  tstep : ℚ
  mode : String

/-- Embeds `Timer.__init__`: `time = 0.0`, `tstep = -1.0`, `mode = 'standby'`. -/
def Timer.init : Timer :=
  ⟨0, -1, "standby"⟩

/-- Embeds `Timer.inc(tstep=[])`: if `time >= 0`, add the given `tstep` when it
is truthy (a nonzero number), else the stored `self.tstep`, and set mode
`'ticking'`; afterwards, if `time <= 0`, clamp `time` to `0.0` and set mode
`'complete'`. -/
def Timer.inc (t : Timer) (tstep : Option ℚ) : Timer :=
  let t1 := if 0 ≤ t.time then
      { t with
        time := t.time + (match tstep with
          | some s => if s ≠ 0 then s else t.tstep
          | none => t.tstep),
        mode := "ticking" }
    else t
  if t1.time ≤ 0 then { t1 with time := 0, mode := "complete" } else t1

/-- Embeds `Timer.reset()`: `time = 0.0`, `mode = 'standby'`. -/
def Timer.reset (t : Timer) : Timer :=
  { t with time := 0, mode := "standby" }

/-- Calls a freshly built Timer may receive in the claimed scenario: `inc()`
with its default argument, and `reset()`. -/
inductive TimerOp where
  | inc : TimerOp
  | reset : TimerOp

/-- Runs a sequence of timer calls left to right. -/
def runTimer : List TimerOp → Timer → Timer
  | [], t => t
  | TimerOp.inc :: ops, t => runTimer ops (t.inc none)
  | TimerOp.reset :: ops, t => runTimer ops t.reset

/-- Declared data of one Parameter field: its name, default value, optional
`<name>_lim = (min, max)` bounds and optional `<name>_set` allowed values. -/
structure PField where
  name : String
  dflt : ℚ
  lim : Option (ℚ × ℚ)
  vset : Option (List ℚ)

/-- Embeds `Parameter.check_lim(k, v)`: if `k_lim` is declared, raise unless
`lim[0] <= v <= lim[1]`; then if `k_set` is declared, raise unless `v` is in
it. -/
def check_lim (lim : Option (ℚ × ℚ)) (vset : Option (List ℚ)) (v : ℚ) :
    Except String Unit :=
  match lim with
  | some b =>
    if b.1 ≤ v ∧ v ≤ b.2 then
      match vset with
      | some s => if v ∈ s then Except.ok () else
          Except.error "Variable outside of set constraints"
      | none => Except.ok ()
    else Except.error "Variable outside of limits"
  | none =>
    match vset with
    | some s => if v ∈ s then Except.ok () else
        Except.error "Variable outside of set constraints"
    | none => Except.ok ()

/-- The value `Parameter.__init__`'s limit loop checks for the field at
position `i`: the positional argument at `i` when there is one, else the
keyword argument under the field's name, else nothing (defaults are not
checked). -/
def suppliedAt (f : PField) (args : List ℚ) (kwargs : List (String × ℚ))
    (i : Nat) : Option ℚ :=
  if h : i < args.length then some (args.get ⟨i, h⟩)
  else assocLookup kwargs f.name

/-- Embeds the `check_lim` loop of `Parameter.__init__`:
`for i, k in enumerate(self.__fields__)`, checking the positional argument if
present, else the keyword argument if present. `i` is the position of the
first field of the remaining list. -/
def checkLimsFrom (args : List ℚ) (kwargs : List (String × ℚ)) :
    List PField → Nat → Except String Unit
  | [], _ => Except.ok ()
  | f :: rest, i =>
    match (match suppliedAt f args kwargs i with
           | some v => check_lim f.lim f.vset v
           | none => Except.ok ()) with
    | Except.error e => Except.error e
    | Except.ok _ => checkLimsFrom args kwargs rest (i + 1)

/-- The field values after construction: positional argument, else keyword
argument, else the declared default. -/
def paramValues (fields : List PField) (args : List ℚ)
    (kwargs : List (String × ℚ)) : List (String × ℚ) :=
  (List.range fields.length).zip fields |>.map (fun p =>
    (p.2.name, match suppliedAt p.2 args kwargs p.1 with
               | some v => v
               | none => p.2.dflt))

/-- Embeds `Parameter.__init__(*args, **kwargs)` restricted to its limit
checking (`check_lim=True`): every supplied field value is checked against the
field's declared bounds and allowed set before the record is built, and a
failed check aborts construction. -/
def Parameter.init (fields : List PField) (args : List ℚ)
    (kwargs : List (String × ℚ)) : Except String (List (String × ℚ)) :=
  match checkLimsFrom args kwargs fields 0 with
  | Except.error e => Except.error e
  | Except.ok _ => Except.ok (paramValues fields args kwargs)

/-- A supplied value violating the field's declared constraints: outside the
`_lim` bounds, or not among the `_set` allowed values. -/
def violatesLim (f : PField) (v : ℚ) : Prop :=
  (∃ b, f.lim = some b ∧ ¬(b.1 ≤ v ∧ v ≤ b.2)) ∨
  (∃ s, f.vset = some s ∧ v ∉ s)

/-- Argument to `find_overlap_n`: either a flat `[start, end]` interval (the
source detects this by `type(interval[0]) in [float, int]` and wraps it), or a
list of intervals. -/
inductive IntervalArg where
  | single : ℚ × ℚ → IntervalArg
  | multi : List (ℚ × ℚ) → IntervalArg

/-- The interval list the source works on after wrapping a flat interval. -/
def IntervalArg.toIntervals : IntervalArg → List (ℚ × ℚ)
  | single iv => [iv]
  | multi ivs => ivs

/-- Embeds one argument's eligible instant set
`possible_times.update(*[{*np.arange(i[0], i[-1]+1)} for i in interval])`:
the union over the argument's intervals of the step-1 instants from start to
end inclusive. -/
def possibleTimes (iv : IntervalArg) : List ℚ :=
  ((iv.toIntervals.map (fun p => arange p.1 (p.2 + 1) 1)).flatten).dedup

/-- Loop of `find_overlap_n`: the first argument's instant set, intersected
with each later argument's instant set, recording each set's cardinality. -/
def overlapLoop : List IntervalArg → Option (List ℚ) → List Nat →
    Option (List ℚ) × List Nat
  | [], joined, counts => (joined, counts)
  | iv :: rest, joined, counts =>
    let pt := possibleTimes iv
    let j2 := match joined with
      | none => pt
      | some j => j.filter (fun t => decide (t ∈ pt))
    overlapLoop rest (some j2) (counts ++ [pt.length])

/-- Embeds the main path of `find_overlap_n(intervals)`: returns the sorted
intersection of all arguments' eligible instant sets together with each set's
cardinality, and `[]` as first component when the intersection is empty. The
source's `except IndexError` fallback is reachable only when some argument is
an empty list and is not modelled. -/
def find_overlap_n (intervals : List IntervalArg) : List ℚ × List Nat :=
  match overlapLoop intervals none [] with
  | (none, counts) => ([], counts)
  | (some j, counts) =>
    if j = [] then ([], counts)
    else (j.insertionSort (fun a b => a ≤ b), counts)

instance {ε α : Type} [DecidableEq ε] [DecidableEq α] : DecidableEq (Except ε α) :=
  fun a b =>
    match a, b with
    | Except.ok x, Except.ok y => decidable_of_iff (x = y) (by simp)
    | Except.ok _, Except.error _ => isFalse (by simp)
    | Except.error _, Except.ok _ => isFalse (by simp)
    | Except.error e, Except.error f => decidable_of_iff (e = f) (by simp)

/-- The dict keys `calc_samples_in_phases` initializes its counts with: all
modephases when a grouping is present, else all phases. -/
def keysOf (pm : PhaseMap) : List String :=
  if pm.modephases = [] then pm.phases.map (fun p => p.1)
  else pm.modephases.map (fun m => m.1)

/-- Interval length recorded for a phase name: `end - start + dt` when the
phase is declared, `0` otherwise (used only to state sums over declared
phases). -/
def phaseLen (pm : PhaseMap) (ph : String) : ℚ :=
  match assocLookup pm.phases ph with
  | some iv => iv.2 - iv.1 + pm.dt
  | none => 0

end Fmd

namespace Fmd

theorem findPhaseIn_ok_mem {l : List (String × ℚ × ℚ)} {t d : ℚ} {name : String}
    (h : findPhaseIn l t d = Except.ok name) :
    ∃ s e, (name, s, e) ∈ l ∧ s ≤ t ∧ t < e + d := by
  induction l with
  | nil => simp [findPhaseIn] at h
  | cons p rest ih =>
    by_cases hc : p.2.1 ≤ t ∧ t < p.2.2 + d
    · rw [findPhaseIn, if_pos hc] at h
      simp only [Except.ok.injEq] at h
      subst h
      exact ⟨p.2.1, p.2.2, by simp, hc⟩
    · rw [findPhaseIn, if_neg hc] at h
      obtain ⟨s, e, hm, hse⟩ := ih h
      exact ⟨s, e, List.mem_cons_of_mem _ hm, hse⟩

theorem findPhaseIn_error_iff {l : List (String × ℚ × ℚ)} {t d : ℚ} :
    (∃ msg, findPhaseIn l t d = Except.error msg) ↔
      ∀ p ∈ l, ¬(p.2.1 ≤ t ∧ t < p.2.2 + d) := by
  induction l with
  | nil => simp [findPhaseIn]
  | cons p rest ih =>
    by_cases hc : p.2.1 ≤ t ∧ t < p.2.2 + d
    · simp [findPhaseIn, if_pos hc, hc]
    · simp only [findPhaseIn, if_neg hc, List.mem_cons]
      constructor
      · rintro ⟨msg, hmsg⟩ q (rfl | hq)
        · exact hc
        · exact ih.mp ⟨msg, hmsg⟩ q hq
      · intro hall
        exact ih.mpr (fun q hq => hall q (Or.inr hq))

theorem findPhaseIn_first {l : List (String × ℚ × ℚ)} {t d : ℚ} {i : Nat}
    (hi : i < l.length)
    (hcur : (l.get ⟨i, hi⟩).2.1 ≤ t ∧ t < (l.get ⟨i, hi⟩).2.2 + d)
    (hprev : ∀ j (hj : j < i), ¬((l.get ⟨j, Nat.lt_trans hj hi⟩).2.1 ≤ t ∧
        t < (l.get ⟨j, Nat.lt_trans hj hi⟩).2.2 + d)) :
    findPhaseIn l t d = Except.ok (l.get ⟨i, hi⟩).1 := by
  induction l generalizing i with
  | nil => exact absurd hi (Nat.not_lt_zero i)
  | cons p rest ih =>
    cases i with
    | zero =>
      have hc : p.2.1 ≤ t ∧ t < p.2.2 + d := hcur
      rw [findPhaseIn, if_pos hc]
      rfl
    | succ n =>
      have hp : ¬(p.2.1 ≤ t ∧ t < p.2.2 + d) :=
        hprev 0 (Nat.succ_pos n)
      rw [findPhaseIn, if_neg hp]
      exact ih (Nat.lt_of_succ_lt_succ hi) hcur
        (fun j hj => hprev (j + 1) (Nat.succ_lt_succ hj))

theorem sumPhaseTimes_eq {pm : PhaseMap} {phs : List String}
    (h : ∀ ph ∈ phs, (assocLookup pm.phases ph).isSome) :
    sumPhaseTimes pm phs = Except.ok ((phs.map (phaseLen pm)).sum) := by
  induction phs with
  | nil => simp [sumPhaseTimes]
  | cons ph rest ih =>
    obtain ⟨iv, hiv⟩ := Option.isSome_iff_exists.mp (h ph (List.mem_cons_self ph rest))
    have hrest := ih (fun q hq => h q (List.mem_cons_of_mem _ hq))
    simp [sumPhaseTimes, PhaseMap.calc_phase_time, hiv, hrest, phaseLen]

theorem timer_inc_nonneg (t : Timer) (s : Option ℚ) : 0 ≤ (t.inc s).time := by
  unfold Timer.inc
  set t1 := if 0 ≤ t.time then
      { t with
        time := t.time + (match s with
          | some v => if v ≠ 0 then v else t.tstep
          | none => t.tstep),
        mode := "ticking" }
    else t with ht1
  by_cases h1 : t1.time ≤ 0
  · simp [h1]
  · simp [h1]
    linarith [not_le.mp h1]

theorem runTimer_nonneg (ops : List TimerOp) (t : Timer) (h : 0 ≤ t.time) :
    0 ≤ (runTimer ops t).time := by
  induction ops generalizing t with
  | nil => exact h
  | cons op rest ih =>
    cases op with
    | inc => exact ih (t.inc none) (timer_inc_nonneg t none)
    | reset => exact ih t.reset (le_refl 0)

/-- C2: `find_phase` returns only the name of a declared phase whose interval
`[start, end]`, extended to `end + dt` by the end-of-step quantum passed as
`dt`, contains the time (with `start <= time < end + dt`), and it raises an
error rather than returning any default exactly when the time lies outside
every declared phase's extended interval. -/
theorem claim_C2 (pm : PhaseMap) (t dt : ℚ) :
    (∀ name, pm.find_phase t dt = Except.ok name →
      ∃ s e, (name, s, e) ∈ pm.phases ∧ s ≤ t ∧ t < e + dt) ∧
    ((∃ msg, pm.find_phase t dt = Except.error msg) ↔
      ∀ p ∈ pm.phases, ¬(p.2.1 ≤ t ∧ t < p.2.2 + dt)) := by
  constructor
  · intro name h
    exact findPhaseIn_ok_mem h
  · exact findPhaseIn_error_iff

/-- Witness for C2 at the phase map `on = [0, 3]`, `dt = 1`, `time = 2`. -/
theorem claim_C2_witness :
    ∃ s e, ("on", s, e) ∈ [("on", (0 : ℚ), (3 : ℚ))] ∧ s ≤ 2 ∧ (2 : ℚ) < e + 1 :=
  (claim_C2 (PhaseMap.mk [("on", 0, 3)] [] 1) 2 1).1 "on"
    (by norm_num [PhaseMap.find_phase, findPhaseIn])

/-- C3: `calc_phase_time` on a declared phase `[start, end]` returns
`end - start + dt` for the map's timestep `dt` (both endpoints inclusive); in
particular the phase `[0, 4]` with `dt = 1.0` has phase time `5.0`. -/
theorem claim_C3 :
    (∀ (pm : PhaseMap) (phase : String) (s e : ℚ),
      assocLookup pm.phases phase = some (s, e) →
      pm.calc_phase_time phase = Except.ok (e - s + pm.dt)) ∧
    (PhaseMap.mk [("on", 0, 4), ("off", 5, 10)] [] 1).calc_phase_time "on" =
      Except.ok 5 := by
  constructor
  · intro pm phase s e h
    simp [PhaseMap.calc_phase_time, h]
  · norm_num [PhaseMap.calc_phase_time, assocLookup]

/-- Witness for C3 at the phase `on = [0, 4]` with `dt = 1`. -/
theorem claim_C3_witness :
    (PhaseMap.mk [("on", (0 : ℚ), (4 : ℚ))] [] 1).calc_phase_time "on" =
      Except.ok (4 - 0 + 1) :=
  claim_C3.1 (PhaseMap.mk [("on", 0, 4)] [] 1) "on" 0 4 (by norm_num [assocLookup])

/-- C4: `calc_modephase_time` on a declared modephase returns the sum of
`calc_phase_time` over the phases mapped to it; in particular the mode mapping
to `[0, 1]` and `[2, 3]` with `dt = 1.0` gives `4.0`. -/
theorem claim_C4 :
    (∀ (pm : PhaseMap) (mp : String) (phs : List String),
      assocLookup pm.modephases mp = some phs →
      (∀ ph ∈ phs, (assocLookup pm.phases ph).isSome) →
      pm.calc_modephase_time mp = Except.ok ((phs.map (phaseLen pm)).sum)) ∧
    (PhaseMap.mk [("on1", 0, 1), ("on2", 2, 3)]
      [("on", ["on1", "on2"])] 1).calc_modephase_time "on" = Except.ok 4 := by
  constructor
  · intro pm mp phs hmp hall
    simp [PhaseMap.calc_modephase_time, hmp, sumPhaseTimes_eq hall]
  · norm_num [PhaseMap.calc_modephase_time, sumPhaseTimes, PhaseMap.calc_phase_time,
      assocLookup, (by simp : ¬("on1" = "on2"))]

/-- Witness for C4 at the modephase `on = (on1, on2)` over `on1 = [0, 1]`,
`on2 = [2, 3]`, `dt = 1`. -/
theorem claim_C4_witness :
    (PhaseMap.mk [("on1", (0 : ℚ), (1 : ℚ)), ("on2", 2, 3)]
        [("on", ["on1", "on2"])] 1).calc_modephase_time "on" =
      Except.ok ((["on1", "on2"].map
        (phaseLen (PhaseMap.mk [("on1", 0, 1), ("on2", 2, 3)]
          [("on", ["on1", "on2"])] 1))).sum) :=
  claim_C4.1 (PhaseMap.mk [("on1", 0, 1), ("on2", 2, 3)] [("on", ["on1", "on2"])] 1)
    "on" ["on1", "on2"] (by norm_num [assocLookup])
    (by
      intro ph hph
      simp only [List.mem_cons, List.not_mem_nil, or_false] at hph
      rcases hph with rfl | rfl
      · norm_num [assocLookup]
      · norm_num [assocLookup, (by simp : ¬("on1" = "on2"))])

/-- C9: `find_phase` classifies a time against the `dt` passed as its argument
(default `1.0`), not the map's own `dt` field (its result is invariant under
changing the field), and it scans the phase dict in declaration order,
returning the first phase whose extended interval contains the time. Hence for
a map built with `dt = 2.0` and phase `on = [0, 3]`, time `4` is inside the
map's own step quantum (`4 < 3 + 2`) yet `find_phase 4` with the default
argument, and with it the callers `calc_scen_exposure_time` and
`calc_samples_in_phases`, classify `4` against `3 + 1.0` and raise; and on a
map with overlapping phases `a = [0, 5]`, `b = [3, 8]` the earliest-declared
match `a` wins at time `4`. -/
theorem claim_C9 :
    (∀ pm pm2 : PhaseMap, pm.phases = pm2.phases →
      ∀ t d, pm.find_phase t d = pm2.find_phase t d) ∧
    (∀ (pm : PhaseMap) (t d : ℚ) (i : Nat) (hi : i < pm.phases.length),
      ((pm.phases.get ⟨i, hi⟩).2.1 ≤ t ∧ t < (pm.phases.get ⟨i, hi⟩).2.2 + d) →
      (∀ j (hj : j < i), ¬((pm.phases.get ⟨j, Nat.lt_trans hj hi⟩).2.1 ≤ t ∧
          t < (pm.phases.get ⟨j, Nat.lt_trans hj hi⟩).2.2 + d)) →
      pm.find_phase t d = Except.ok (pm.phases.get ⟨i, hi⟩).1) ∧
    (PhaseMap.mk [("a", 0, 5), ("b", 3, 8)] [] 1).find_phase 4 1 = Except.ok "a" ∧
    ((4 : ℚ) < 3 + 2 ∧ ¬((4 : ℚ) < 3 + 1)) ∧
    (PhaseMap.mk [("on", 0, 3)] [] 2).find_phase 4 2 = Except.ok "on" ∧
    (PhaseMap.mk [("on", 0, 3)] [] 2).find_phase 4 1 =
      Except.error "time not in phases" ∧
    (PhaseMap.mk [("on", 0, 3)] [] 2).calc_scen_exposure_time 4 =
      Except.error "time not in phases" ∧
    (PhaseMap.mk [("on", 0, 3)] [] 2).calc_samples_in_phases [4] =
      Except.error "time not in phases" := by
  refine ⟨?_, ?_, ?_, ?_, ?_, ?_, ?_, ?_⟩
  · intro pm pm2 hp t d
    unfold PhaseMap.find_phase
    rw [hp]
  · intro pm t d i hi hcur hprev
    exact findPhaseIn_first hi hcur hprev
  · norm_num [PhaseMap.find_phase, findPhaseIn]
  · norm_num
  · norm_num [PhaseMap.find_phase, findPhaseIn]
  · norm_num [PhaseMap.find_phase, findPhaseIn]
  · norm_num [PhaseMap.calc_scen_exposure_time, PhaseMap.find_phase, findPhaseIn]
  · norm_num [PhaseMap.calc_samples_in_phases, samplesLoop, PhaseMap.find_base_phase,
      PhaseMap.find_phase, findPhaseIn]

/-- Witness for C9 (first-match clause) on the overlapping map
`a = [0, 5]`, `b = [3, 8]` at time `4`. -/
theorem claim_C9_witness :
    (PhaseMap.mk [("a", (0 : ℚ), (5 : ℚ)), ("b", 3, 8)] [] 1).find_phase 4 1 =
      Except.ok (((PhaseMap.mk [("a", (0 : ℚ), (5 : ℚ)), ("b", 3, 8)] [] 1)).phases.get
        ⟨0, by norm_num⟩).1 :=
  claim_C9.2.1 (PhaseMap.mk [("a", 0, 5), ("b", 3, 8)] [] 1) 4 1 0 (by norm_num)
    (by norm_num) (fun j hj => absurd hj (Nat.not_lt_zero j))

theorem findModephaseIn_ok_mem {l : List (String × List String)} {ph m : String}
    (h : findModephaseIn l ph = Except.ok m) :
    ∃ entry ∈ l, entry.1 = m ∧ ph ∈ entry.2 := by
  induction l with
  | nil => simp [findModephaseIn] at h
  | cons q rest ih =>
    by_cases hq : ph ∈ q.2
    · rw [findModephaseIn, if_pos hq] at h
      simp only [Except.ok.injEq] at h
      exact ⟨q, List.mem_cons_self q rest, h, hq⟩
    · rw [findModephaseIn, if_neg hq] at h
      obtain ⟨entry, hm, he⟩ := ih h
      exact ⟨entry, List.mem_cons_of_mem _ hm, he⟩

theorem find_base_phase_ok_mem_keys {pm : PhaseMap} {t : ℚ} {k : String}
    (h : pm.find_base_phase t = Except.ok k) : k ∈ keysOf pm := by
  unfold PhaseMap.find_base_phase at h
  cases hf : pm.find_phase t 1 with
  | error e => rw [hf] at h; cases h
  | ok ph =>
    rw [hf] at h
    have h2 : (if pm.modephases = [] then Except.ok ph else pm.find_modephase ph) =
        Except.ok k := h
    by_cases hmp : pm.modephases = []
    · rw [if_pos hmp] at h2
      simp only [Except.ok.injEq] at h2
      subst h2
      obtain ⟨s, e, hm, _⟩ := findPhaseIn_ok_mem hf
      rw [keysOf, if_pos hmp]
      exact List.mem_map.mpr ⟨(ph, s, e), hm, rfl⟩
    · rw [if_neg hmp] at h2
      obtain ⟨entry, hm, he, _⟩ := findModephaseIn_ok_mem h2
      rw [keysOf, if_neg hmp]
      exact List.mem_map.mpr ⟨entry, hm, he⟩

theorem bumpCount_map {keys : List String} (hnd : keys.Nodup) (c : String → Nat)
    {k : String} (hk : k ∈ keys) :
    bumpCount (keys.map (fun x => (x, c x))) k =
      Except.ok (keys.map (fun x => (x, if x = k then c x + 1 else c x))) := by
  induction keys with
  | nil => cases hk
  | cons a rest ih =>
    by_cases hak : a = k
    · subst hak
      have hnr : a ∉ rest := (List.nodup_cons.mp hnd).1
      rw [List.map_cons, bumpCount, if_pos rfl]
      simp only [List.map_cons, if_pos rfl, Except.ok.injEq, List.cons.injEq]
      refine ⟨rfl, ?_⟩
      apply List.map_congr_left
      intro x hx
      have hxk : ¬(x = a) := fun hxa => hnr (hxa ▸ hx)
      rw [if_neg hxk]
    · have hkr : k ∈ rest := by
        rcases List.mem_cons.mp hk with h1 | h1
        · exact absurd h1.symm hak
        · exact h1
      rw [List.map_cons, bumpCount, if_neg hak]
      simp only [ih (List.nodup_cons.mp hnd).2 hkr, List.map_cons]
      rw [if_neg hak]

theorem samplesLoop_counts {pm : PhaseMap} {keys : List String} (hnd : keys.Nodup)
    (hmem : ∀ t k, pm.find_base_phase t = Except.ok k → k ∈ keys) :
    ∀ (times : List ℚ) (c : String → Nat),
      (∀ t ∈ times, ∃ k, pm.find_base_phase t = Except.ok k) →
      samplesLoop pm times (keys.map (fun x => (x, c x))) =
        Except.ok (keys.map (fun x =>
          (x, c x + times.countP (fun u => decide (pm.find_base_phase u = Except.ok x)))))
  | [], c, _ => by simp [samplesLoop]
  | t :: ts, c, hall => by
    obtain ⟨k, hk⟩ := hall t (List.mem_cons_self t ts)
    rw [samplesLoop]
    simp only [hk, bumpCount_map hnd c (hmem t k hk),
      samplesLoop_counts hnd hmem ts (fun x => if x = k then c x + 1 else c x)
        (fun u hu => hall u (List.mem_cons_of_mem t hu))]
    congr 1
    apply List.map_congr_left
    intro x hx
    simp only [Prod.mk.injEq, true_and]
    rw [List.countP_cons]
    by_cases hxk : x = k
    · subst hxk
      have : decide (pm.find_base_phase t = Except.ok x) = true := by
        simp [hk]
      rw [if_pos rfl, this]
      simp
      try omega
    · have : decide (pm.find_base_phase t = Except.ok x) = false := by
        simp only [decide_eq_false_iff_not]
        rw [hk]
        simp only [Except.ok.injEq]
        exact fun hkx => hxk hkx.symm
      rw [if_neg hxk, this]
      simp
      try omega

/-- C5: `calc_samples_in_phases(1,2,3,4,5)` on phases `on = [0,3]`,
`off = [4,5]` gives `on: 3, off: 2`; with the modephase grouping
`oper = (on, off)` it gives `oper: 5`; and in general, when every given time
lies in some phase, the result maps each phase (each modephase when a grouping
is present) to the number of given times classified into it. -/
theorem claim_C5 :
    ((PhaseMap.mk [("on", 0, 3), ("off", 4, 5)] [] 1).calc_samples_in_phases
      [1, 2, 3, 4, 5] = Except.ok [("on", 3), ("off", 2)]) ∧
    ((PhaseMap.mk [("on", 0, 3), ("off", 4, 5)]
      [("oper", ["on", "off"])] 1).calc_samples_in_phases
      [1, 2, 3, 4, 5] = Except.ok [("oper", 5)]) ∧
    (∀ (pm : PhaseMap) (times : List ℚ), (keysOf pm).Nodup →
      (∀ t ∈ times, ∃ k, pm.find_base_phase t = Except.ok k) →
      pm.calc_samples_in_phases times = Except.ok ((keysOf pm).map (fun k =>
        (k, times.countP (fun u => decide (pm.find_base_phase u = Except.ok k)))))) := by
  refine ⟨?_, ?_, ?_⟩
  · norm_num [PhaseMap.calc_samples_in_phases, samplesLoop, PhaseMap.find_base_phase,
      PhaseMap.find_phase, findPhaseIn, bumpCount,
      (by simp : ¬("on" = "off")), (by simp : ¬("off" = "on"))]
  · norm_num [PhaseMap.calc_samples_in_phases, samplesLoop, PhaseMap.find_base_phase,
      PhaseMap.find_phase, findPhaseIn, PhaseMap.find_modephase, findModephaseIn,
      bumpCount, (by simp : ¬("on" = "off")), (by simp : ¬("off" = "on"))]
  · intro pm times hnd hall
    have hmain := samplesLoop_counts hnd
      (fun t k hk => find_base_phase_ok_mem_keys hk) times (fun _ => 0) hall
    simp only [Nat.zero_add] at hmain
    exact hmain

/-- Witness for C5 (general counting clause) at phases `on = [0, 3]`,
time list `[1, 2]`. -/
theorem claim_C5_witness :
    (PhaseMap.mk [("on", (0 : ℚ), (3 : ℚ))] [] 1).calc_samples_in_phases [1, 2] =
      Except.ok ((keysOf (PhaseMap.mk [("on", (0 : ℚ), (3 : ℚ))] [] 1)).map (fun k =>
        (k, [(1 : ℚ), 2].countP (fun u =>
          decide ((PhaseMap.mk [("on", (0 : ℚ), (3 : ℚ))] [] 1).find_base_phase u =
            Except.ok k))))) :=
  claim_C5.2.2 (PhaseMap.mk [("on", 0, 3)] [] 1) [1, 2]
    (by simp [keysOf])
    (by
      intro t ht
      refine ⟨"on", ?_⟩
      simp only [List.mem_cons, List.not_mem_nil, or_false] at ht
      rcases ht with rfl | rfl
      · norm_num [PhaseMap.find_base_phase, PhaseMap.find_phase, findPhaseIn]
      · norm_num [PhaseMap.find_base_phase, PhaseMap.find_phase, findPhaseIn])

theorem arange_nat (s dt : ℚ) (n : ℕ) (hdt : 0 < dt) :
    arange s (s + n * dt) dt = (List.range n).map (fun k : ℕ => s + (k : ℚ) * dt) := by
  unfold arange
  have h1 : (s + n * dt - s) / dt = (n : ℚ) := by
    rw [add_sub_cancel_left, mul_div_assoc, div_self (ne_of_gt hdt), mul_one]
  rw [h1, Int.ceil_natCast, Int.toNat_ofNat]

theorem gen_interval_times_nat (s e dt : ℚ) (n : ℕ) (hdt : 0 < dt)
    (he : e = s + n * dt) :
    gen_interval_times (s, e) dt =
      (List.range (n + 1)).map (fun k : ℕ => s + (k : ℚ) * dt) := by
  unfold gen_interval_times
  have h2 : e + dt = s + ((n + 1 : ℕ) : ℚ) * dt := by
    rw [he]
    push_cast
    ring
  rw [show ((s, e) : ℚ × ℚ).1 = s from rfl, show ((s, e) : ℚ × ℚ).2 = e from rfl,
    h2, arange_nat s dt (n + 1) hdt]

theorem rangeMap_pairwise_lt (s dt : ℚ) (hdt : 0 < dt) (n : ℕ) :
    ((List.range n).map (fun k : ℕ => s + (k : ℚ) * dt)).Pairwise
      (fun a b : ℚ => a < b) := by
  have h0 := List.pairwise_lt_range n
  refine List.Pairwise.map (fun k : ℕ => s + (k : ℚ) * dt)
    (fun a b hab => ?_) h0
  show s + (a : ℚ) * dt < s + (b : ℚ) * dt
  have hc : (a : ℚ) < b := by exact_mod_cast hab
  have := mul_lt_mul_of_pos_right hc hdt
  linarith

theorem sortDedup_of_pairwise_lt {l : List ℚ} (hs : l.Pairwise (fun a b : ℚ => a < b)) :
    (l.dedup).insertionSort (fun a b => a ≤ b) = l := by
  have hnd : l.Nodup := hs.imp (fun h => ne_of_lt h)
  have hsorted : l.Sorted (fun a b : ℚ => a ≤ b) := hs.imp (fun h => le_of_lt h)
  rw [List.Nodup.dedup hnd, List.Sorted.insertionSort_eq hsorted]

theorem collectIntervals_eq {pm : PhaseMap} {phs : List String}
    (h : ∀ ph ∈ phs, (assocLookup pm.phases ph).isSome) :
    collectIntervals pm phs =
      Except.ok (phs.map (fun ph => (assocLookup pm.phases ph).getD (0, 0))) := by
  induction phs with
  | nil => simp [collectIntervals]
  | cons ph rest ih =>
    obtain ⟨iv, hiv⟩ := Option.isSome_iff_exists.mp (h ph (List.mem_cons_self ph rest))
    simp only [collectIntervals, hiv,
      ih (fun q hq => h q (List.mem_cons_of_mem _ hq)), List.map_cons, Option.getD_some]

/-- C6: `get_sample_times` on `on1 = [0, 4]` with `dt = 1.0` yields
`[0, 1, 2, 3, 4]`, and on the modephase `on = (on1, on2)` with `on2 = [5, 6]`
yields the sorted union `[0, ..., 6]`; with no names it defaults to all
modephases when a grouping is present, else all phases; in general a declared
phase `[s, e]` with `e = s + n dt` yields the instants `s, s + dt, ..., e`
(both endpoints inclusive), and a modephase yields the sorted union of its
phases' interval instants. -/
theorem claim_C6 :
    ((PhaseMap.mk [("on1", 0, 4), ("on2", 5, 6)]
      [("on", ["on1", "on2"])] 1).get_sample_times ["on1"] =
      Except.ok [("on1", [0, 1, 2, 3, 4])]) ∧
    ((PhaseMap.mk [("on1", 0, 4), ("on2", 5, 6)]
      [("on", ["on1", "on2"])] 1).get_sample_times ["on"] =
      Except.ok [("on", [0, 1, 2, 3, 4, 5, 6])]) ∧
    (∀ pm : PhaseMap,
      (pm.modephases ≠ [] →
        pm.get_sample_times [] = pm.get_sample_times (pm.modephases.map (fun m => m.1))) ∧
      (pm.modephases = [] →
        pm.get_sample_times [] = pm.get_sample_times (pm.phases.map (fun p => p.1)))) ∧
    (∀ (pm : PhaseMap) (phase : String) (s e : ℚ) (n : ℕ), 0 < pm.dt →
      assocLookup pm.modephases phase = none →
      assocLookup pm.phases phase = some (s, e) →
      e = s + n * pm.dt →
      pm.get_phase_times phase =
        Except.ok ((List.range (n + 1)).map (fun k : ℕ => s + (k : ℚ) * pm.dt))) ∧
    (∀ (pm : PhaseMap) (mp : String) (phs : List String),
      assocLookup pm.modephases mp = some phs →
      (∀ ph ∈ phs, (assocLookup pm.phases ph).isSome) → phs ≠ [] →
      ∃ l, pm.get_phase_times mp = Except.ok l ∧
        l.Sorted (fun a b => a ≤ b) ∧
        ∀ u : ℚ, (u ∈ l ↔ ∃ ph ∈ phs, ∃ iv, assocLookup pm.phases ph = some iv ∧
          u ∈ gen_interval_times iv pm.dt)) := by
  refine ⟨?_, ?_, ?_, ?_, ?_⟩
  · norm_num [PhaseMap.get_sample_times, sampleTimesLoop, PhaseMap.get_phase_times,
      collectIntervals, assocLookup, gen_interval_times, arange, dictOfList, dictUpdate,
      List.insertionSort, List.orderedInsert, List.range_succ,
      (by simp : ¬("on" = "on1")), (by simp : ¬("on1" = "on2")), (by simp : ¬("on1" = "on"))]
  · norm_num [PhaseMap.get_sample_times, sampleTimesLoop, PhaseMap.get_phase_times,
      collectIntervals, assocLookup, gen_interval_times, arange, dictOfList, dictUpdate,
      List.insertionSort, List.orderedInsert, List.range_succ,
      (by simp : ¬("on1" = "on2")), (by simp : ¬("on2" = "on1"))]
    try simp [List.range_succ]
    try norm_num [dictOfList, dictUpdate, List.insertionSort, List.orderedInsert]
  · intro pm
    constructor
    · intro hmp
      have h1 : pm.modephases.map (fun m => m.1) ≠ [] := by simpa using hmp
      unfold PhaseMap.get_sample_times
      simp [hmp, h1]
    · intro hmp
      by_cases hph : pm.phases = []
      · rw [show pm.phases.map (fun p => p.1) = ([] : List String) from by simp [hph]]
      · have h1 : pm.phases.map (fun p => p.1) ≠ [] := by simpa using hph
        unfold PhaseMap.get_sample_times
        simp [hmp, hph, h1]
  · intro pm phase s e n hdt hmp hph he
    unfold PhaseMap.get_phase_times
    simp only [hmp, hph]
    rw [if_neg (by simp)]
    simp only [List.map_cons, List.map_nil, List.flatten_cons, List.flatten_nil,
      List.append_nil]
    rw [gen_interval_times_nat s e pm.dt n hdt he]
    exact congrArg Except.ok (sortDedup_of_pairwise_lt (rangeMap_pairwise_lt s pm.dt hdt (n + 1)))
  · intro pm mp phs hmp hall hne
    unfold PhaseMap.get_phase_times
    simp only [hmp, collectIntervals_eq hall]
    rw [if_neg (by
      simp only [List.map_eq_nil_iff]
      exact hne)]
    refine ⟨_, rfl, ?_, ?_⟩
    · exact List.sorted_insertionSort (fun a b => a ≤ b) _
    · intro u
      rw [(List.perm_insertionSort (fun a b => a ≤ b) _).mem_iff, List.mem_dedup,
        List.mem_flatten]
      constructor
      · rintro ⟨ts, hts, hu⟩
        obtain ⟨iv0, hiv0, rfl⟩ := List.mem_map.mp hts
        obtain ⟨ph, hph, rfl⟩ := List.mem_map.mp hiv0
        obtain ⟨iv, hiv⟩ := Option.isSome_iff_exists.mp (hall ph hph)
        refine ⟨ph, hph, iv, hiv, ?_⟩
        rw [hiv] at hu
        simpa using hu
      · rintro ⟨ph, hph, iv, hiv, hu⟩
        refine ⟨gen_interval_times ((assocLookup pm.phases ph).getD (0, 0)) pm.dt, ?_, ?_⟩
        · exact List.mem_map.mpr ⟨(assocLookup pm.phases ph).getD (0, 0),
            List.mem_map.mpr ⟨ph, hph, rfl⟩, rfl⟩
        · rw [hiv]
          simpa using hu

/-- Witness for C6 (single-phase clause) at `on1 = [0, 4]`, `dt = 1`. -/
theorem claim_C6_witness :
    (PhaseMap.mk [("on1", (0 : ℚ), (4 : ℚ))] [] 1).get_phase_times "on1" =
      Except.ok ((List.range 5).map (fun k : ℕ => 0 + (k : ℚ) * 1)) :=
  claim_C6.2.2.2.1 (PhaseMap.mk [("on1", 0, 4)] [] 1) "on1" 0 4 4 (by norm_num)
    (by simp [assocLookup]) (by norm_num [assocLookup]) (by norm_num)

theorem overlapLoop_some (rest : List IntervalArg) :
    ∀ (j : List ℚ) (counts : List Nat),
      ∃ jr cr, overlapLoop rest (some j) counts = (some jr, cr) ∧
        (∀ t : ℚ, t ∈ jr ↔ t ∈ j ∧ ∀ iv ∈ rest, t ∈ possibleTimes iv) ∧
        (j.Nodup → jr.Nodup) := by
  induction rest with
  | nil =>
    intro j counts
    exact ⟨j, counts, rfl, fun t => by simp, fun h => h⟩
  | cons iv rest ih =>
    intro j counts
    obtain ⟨jr, cr, heq, hmem, hnd⟩ :=
      ih (j.filter (fun t => decide (t ∈ possibleTimes iv))) (counts ++ [(possibleTimes iv).length])
    refine ⟨jr, cr, ?_, ?_, ?_⟩
    · rw [overlapLoop]
      exact heq
    · intro t
      rw [hmem t, List.mem_filter]
      simp only [decide_eq_true_eq, List.mem_cons]
      constructor
      · rintro ⟨⟨htj, htv⟩, hall⟩
        exact ⟨htj, fun iv2 hiv2 => by
          rcases hiv2 with rfl | hiv2
          · exact htv
          · exact hall iv2 hiv2⟩
      · rintro ⟨htj, hall⟩
        exact ⟨⟨htj, hall iv (Or.inl rfl)⟩, fun iv2 hiv2 => hall iv2 (Or.inr hiv2)⟩
    · intro h
      exact hnd (h.filter _)

/-- C8: on a non-empty argument list, `find_overlap_n` returns (as its first
component) the sorted list of instants common to every argument's eligible
instant set, and the empty list exactly when that intersection is empty.
(The hypothesis on `toIntervals` keeps the statement within the source's main
path: an argument that is an empty list would take the source's `IndexError`
fallback, which is not modelled.) -/
theorem claim_C8 (intervals : List IntervalArg) (hne : intervals ≠ [])
    (hwf : ∀ iv ∈ intervals, iv.toIntervals ≠ []) :
    ((find_overlap_n intervals).1.Sorted (fun a b : ℚ => a ≤ b)) ∧
    (∀ t : ℚ, t ∈ (find_overlap_n intervals).1 ↔
      ∀ iv ∈ intervals, t ∈ possibleTimes iv) ∧
    ((¬∃ t : ℚ, ∀ iv ∈ intervals, t ∈ possibleTimes iv) →
      (find_overlap_n intervals).1 = []) := by
  cases intervals with
  | nil => exact absurd rfl hne
  | cons iv0 rest =>
    obtain ⟨jr, cr, heq, hmem, hnd⟩ := overlapLoop_some rest (possibleTimes iv0)
      ([] ++ [(possibleTimes iv0).length])
    have hjrnd : jr.Nodup := hnd (List.nodup_dedup _)
    have hloop : overlapLoop (iv0 :: rest) none [] = (some jr, cr) := by
      rw [overlapLoop]
      exact heq
    have hmem2 : ∀ t : ℚ, t ∈ jr ↔ ∀ iv ∈ iv0 :: rest, t ∈ possibleTimes iv := by
      intro t
      rw [hmem t]
      simp only [List.mem_cons]
      constructor
      · rintro ⟨h0, hall⟩ iv2 hiv2
        rcases hiv2 with rfl | hiv2
        · exact h0
        · exact hall iv2 hiv2
      · intro hall
        exact ⟨hall iv0 (Or.inl rfl), fun iv2 hiv2 => hall iv2 (Or.inr hiv2)⟩
    by_cases hjr : jr = []
    · have hres : (find_overlap_n (iv0 :: rest)).1 = [] := by
        rw [find_overlap_n, hloop]
        show (if jr = [] then (([] : List ℚ), cr)
          else (jr.insertionSort (fun a b => a ≤ b), cr)).1 = []
        rw [if_pos hjr]
      refine ⟨?_, ?_, fun _ => hres⟩
      · rw [hres]
        exact List.sorted_nil
      · intro t
        rw [hres, ← hmem2 t, hjr]
    · have hres : (find_overlap_n (iv0 :: rest)).1 =
          jr.insertionSort (fun a b => a ≤ b) := by
        rw [find_overlap_n, hloop]
        show (if jr = [] then (([] : List ℚ), cr)
          else (jr.insertionSort (fun a b => a ≤ b), cr)).1 =
          jr.insertionSort (fun a b => a ≤ b)
        rw [if_neg hjr]
      refine ⟨?_, ?_, ?_⟩
      · rw [hres]
        exact List.sorted_insertionSort (fun a b => a ≤ b) jr
      · intro t
        rw [hres, (List.perm_insertionSort (fun a b => a ≤ b) jr).mem_iff]
        exact hmem2 t
      · intro hno
        exfalso
        obtain ⟨t0, ht0⟩ := List.exists_mem_of_ne_nil jr hjr
        exact hno ⟨t0, (hmem2 t0).mp ht0⟩

/-- Witness for C8 at the flat intervals `[0, 5]` and `[3, 8]`. -/
theorem claim_C8_witness :
    ((find_overlap_n [IntervalArg.single (0, 5),
      IntervalArg.single (3, 8)]).1.Sorted (fun a b : ℚ => a ≤ b)) ∧
    (∀ t : ℚ, t ∈ (find_overlap_n [IntervalArg.single (0, 5),
        IntervalArg.single (3, 8)]).1 ↔
      ∀ iv ∈ [IntervalArg.single ((0 : ℚ), (5 : ℚ)), IntervalArg.single (3, 8)],
        t ∈ possibleTimes iv) := by
  have h := claim_C8 [IntervalArg.single (0, 5), IntervalArg.single (3, 8)]
    (by simp)
    (by
      intro iv hiv
      simp only [List.mem_cons, List.not_mem_nil, or_false] at hiv
      rcases hiv with rfl | rfl <;> simp [IntervalArg.toIntervals])
  exact ⟨h.1, h.2.1⟩

theorem check_lim_ok_iff (f : PField) (v : ℚ) :
    check_lim f.lim f.vset v = Except.ok () ↔ ¬violatesLim f v := by
  unfold check_lim violatesLim
  cases hl : f.lim with
  | none =>
    cases hs : f.vset with
    | none => simp
    | some s => by_cases hv : v ∈ s <;> simp [hv]
  | some b =>
    by_cases hb : b.1 ≤ v ∧ v ≤ b.2
    · cases hs : f.vset with
      | none => simp [hb, hs]
      | some s => by_cases hv : v ∈ s <;> simp [hv, hb, hs]
    · simp [hb]

theorem checkLimsFrom_ok_iff (args : List ℚ) (kwargs : List (String × ℚ)) :
    ∀ (fields : List PField) (i : Nat),
      checkLimsFrom args kwargs fields i = Except.ok () ↔
        ∀ j f, fields.get? j = some f →
          ∀ v, suppliedAt f args kwargs (i + j) = some v → ¬violatesLim f v := by
  intro fields
  induction fields with
  | nil =>
    intro i
    simp [checkLimsFrom]
  | cons f rest ih =>
    intro i
    have hstep : checkLimsFrom args kwargs (f :: rest) i =
        match (match suppliedAt f args kwargs i with
               | some v => check_lim f.lim f.vset v
               | none => Except.ok ()) with
        | Except.error e => Except.error e
        | Except.ok _ => checkLimsFrom args kwargs rest (i + 1) := rfl
    cases hsup : suppliedAt f args kwargs i with
    | none =>
      rw [hstep, hsup]
      rw [ih (i + 1)]
      constructor
      · intro hrest j g hj v hv
        cases j with
        | zero =>
          simp only [List.get?_cons_zero, Option.some.injEq] at hj
          subst hj
          rw [Nat.add_zero] at hv
          rw [hsup] at hv
          cases hv
        | succ j2 =>
          simp only [List.get?_cons_succ] at hj
          have := hrest j2 g hj v
          rw [show i + 1 + j2 = i + (j2 + 1) from by omega] at this
          exact this hv
      · intro hall j2 g hj v hv
        have := hall (j2 + 1) g (by simpa using hj) v
        rw [show i + (j2 + 1) = i + 1 + j2 from by omega] at this
        exact this hv
    | some v0 =>
      rw [hstep, hsup]
      cases hchk : check_lim f.lim f.vset v0 with
      | error e =>
        simp only [hchk]
        constructor
        · intro hcontra
          cases hcontra
        · intro hall
          exfalso
          have hviol : ¬violatesLim f v0 := hall 0 f rfl v0 (by
            rw [Nat.add_zero]
            exact hsup)
          rw [← check_lim_ok_iff] at hviol
          rw [hchk] at hviol
          cases hviol
      | ok u =>
        cases u
        have hok : ¬violatesLim f v0 := (check_lim_ok_iff f v0).mp hchk
        simp only [hchk]
        rw [ih (i + 1)]
        constructor
        · intro hrest j g hj v hv
          cases j with
          | zero =>
            simp only [List.get?_cons_zero, Option.some.injEq] at hj
            subst hj
            rw [Nat.add_zero] at hv
            rw [hsup] at hv
            cases hv
            exact hok
          | succ j2 =>
            simp only [List.get?_cons_succ] at hj
            have := hrest j2 g hj v
            rw [show i + 1 + j2 = i + (j2 + 1) from by omega] at this
            exact this hv
        · intro hall j2 g hj v hv
          have := hall (j2 + 1) g (by simpa using hj) v
          rw [show i + (j2 + 1) = i + 1 + j2 from by omega] at this
          exact this hv

/-- C7: `Parameter.__init__` checks every supplied field value against the
field's declared `_lim` bounds and `_set` allowed values: a supplied value
outside them makes construction raise, and when every supplied value is within
them construction succeeds, so no limit error can arise afterwards (fields of
a built Parameter are read-only and `check_lim` runs only inside
`__init__`). -/
theorem claim_C7 :
    (∀ (fields : List PField) (args : List ℚ) (kwargs : List (String × ℚ))
       (i : Nat) (f : PField) (v : ℚ),
      fields.get? i = some f → suppliedAt f args kwargs i = some v →
      violatesLim f v →
      ∃ e, Parameter.init fields args kwargs = Except.error e) ∧
    (∀ (fields : List PField) (args : List ℚ) (kwargs : List (String × ℚ)),
      (∀ i f, fields.get? i = some f →
        ∀ v, suppliedAt f args kwargs i = some v → ¬violatesLim f v) →
      Parameter.init fields args kwargs =
        Except.ok (paramValues fields args kwargs)) := by
  constructor
  · intro fields args kwargs i f v hget hsup hviol
    have hnotok : checkLimsFrom args kwargs fields 0 ≠ Except.ok () := by
      intro hok
      have := (checkLimsFrom_ok_iff args kwargs fields 0).mp hok i f
        (by simpa using hget) v
      rw [Nat.zero_add] at this
      exact (this hsup) hviol
    cases hchk : checkLimsFrom args kwargs fields 0 with
    | error e =>
      refine ⟨e, ?_⟩
      rw [Parameter.init, hchk]
    | ok u =>
      cases u
      exact absurd hchk hnotok
  · intro fields args kwargs hall
    have hok : checkLimsFrom args kwargs fields 0 = Except.ok () := by
      rw [checkLimsFrom_ok_iff args kwargs fields 0]
      intro j f hj v hv
      rw [Nat.zero_add] at hv
      exact hall j f hj v hv
    rw [Parameter.init, hok]

/-- Witness for C7 at the example parameter (`x` with limits `(0, 10)`, `y`
with allowed set `(1, 2, 3, 4)`, `z` unconstrained): keyword `x = 11` is
rejected at construction, and `x = 1, y = 2` constructs. -/
theorem claim_C7_witness :
    (∃ e, Parameter.init
        [PField.mk "x" 1 (some (0, 10)) none,
         PField.mk "y" 3 none (some [1, 2, 3, 4]),
         PField.mk "z" 0 none none] [] [("x", 11)] = Except.error e) ∧
    (Parameter.init
        [PField.mk "x" 1 (some (0, 10)) none,
         PField.mk "y" 3 none (some [1, 2, 3, 4]),
         PField.mk "z" 0 none none] [] [("x", 1), ("y", 2)] =
      Except.ok (paramValues
        [PField.mk "x" 1 (some (0, 10)) none,
         PField.mk "y" 3 none (some [1, 2, 3, 4]),
         PField.mk "z" 0 none none] [] [("x", 1), ("y", 2)])) := by
  constructor
  · exact claim_C7.1
      [PField.mk "x" 1 (some (0, 10)) none,
       PField.mk "y" 3 none (some [1, 2, 3, 4]),
       PField.mk "z" 0 none none] [] [("x", 11)] 0
      (PField.mk "x" 1 (some (0, 10)) none) 11 rfl
      (by norm_num [suppliedAt, assocLookup])
      (Or.inl ⟨(0, 10), rfl, by norm_num⟩)
  · refine claim_C7.2 _ _ _ ?_
    intro i f hi v hv
    match i, hi with
    | 0, hi =>
      simp only [List.get?_cons_zero, Option.some.injEq] at hi
      subst hi
      norm_num [suppliedAt, assocLookup] at hv
      subst hv
      rintro (⟨b, hb, hbv⟩ | ⟨s, hs, _⟩)
      · simp only [Option.some.injEq] at hb
        subst hb
        exact hbv (by norm_num)
      · cases hs
    | 1, hi =>
      simp only [List.get?_cons_succ, List.get?_cons_zero, Option.some.injEq] at hi
      subst hi
      norm_num [suppliedAt, assocLookup, (by simp : ¬("x" = "y"))] at hv
      subst hv
      rintro (⟨b, hb, _⟩ | ⟨s, hs, hsv⟩)
      · cases hb
      · simp only [Option.some.injEq] at hs
        subst hs
        exact hsv (by norm_num)
    | 2, hi =>
      simp only [List.get?_cons_succ, List.get?_cons_zero, Option.some.injEq] at hi
      subst hi
      norm_num [suppliedAt, assocLookup, (by simp : ¬("x" = "z")),
        (by simp : ¬("y" = "z"))] at hv
      cases hv
    | (n + 3), hi =>
      simp only [List.get?_cons_succ, List.get?_nil] at hi
      cases hi

theorem dictUpdate_append {β : Type} {acc : List (String × β)} {k : String} {v : β}
    (h : ∀ p ∈ acc, p.1 ≠ k) : dictUpdate acc k v = acc ++ [(k, v)] := by
  induction acc with
  | nil => rfl
  | cons q rest ih =>
    rw [show (q :: rest) = (q.1, q.2) :: rest from rfl, dictUpdate,
      if_neg (h q (List.mem_cons_self q rest)), ih (fun p hp => h p (List.mem_cons_of_mem q hp))]
    rfl

theorem dictOfList_go {β : Type} :
    ∀ (l acc : List (String × β)),
      (∀ p ∈ l, ∀ q ∈ acc, q.1 ≠ p.1) → (l.map (fun p => p.1)).Nodup →
      l.foldl (fun acc2 p => dictUpdate acc2 p.1 p.2) acc = acc ++ l := by
  intro l
  induction l with
  | nil => intro acc _ _; simp
  | cons p rest ih =>
    intro acc hdisj hnd
    rw [List.foldl_cons,
      dictUpdate_append (fun q hq => hdisj p (List.mem_cons_self p rest) q hq)]
    rw [ih (acc ++ [(p.1, p.2)]) ?_ ?_]
    · simp
    · intro r hr q hq
      rcases List.mem_append.mp hq with hq1 | hq1
      · exact hdisj r (List.mem_cons_of_mem p hr) q hq1
      · simp only [List.mem_cons, List.not_mem_nil, or_false] at hq1
        subst hq1
        simp only [List.map_cons, List.nodup_cons] at hnd
        exact fun hcontra => hnd.1 (hcontra ▸ List.mem_map.mpr ⟨r, hr, rfl⟩)
    · simp only [List.map_cons, List.nodup_cons] at hnd
      exact hnd.2

theorem dictOfList_nodup {β : Type} {l : List (String × β)}
    (h : (l.map (fun p => p.1)).Nodup) : dictOfList l = l := by
  rw [dictOfList, dictOfList_go l [] (fun p _ q hq => absurd hq (List.not_mem_nil q)) h]
  rfl

theorem countP_le_of_sorted_not {L : List ℚ} {p : ℚ → Bool} {k : ℕ}
    (hs : L.Sorted (fun a b : ℚ => a ≤ b)) (hk : k < L.length)
    (hdc : ∀ a b : ℚ, a ≤ b → p b = true → p a = true)
    (hx : ¬p (L.get ⟨k, hk⟩) = true) : L.countP p ≤ k := by
  have hsplit : L.countP p = (L.take k).countP p + (L.drop k).countP p := by
    conv_lhs => rw [← List.take_append_drop k L]
    rw [List.countP_append]
  have h1 : (L.take k).countP p ≤ k := by
    calc (L.take k).countP p ≤ (L.take k).length := List.countP_le_length p
    _ ≤ k := by rw [List.length_take]; exact min_le_left k L.length
  have h2 : (L.drop k).countP p = 0 := by
    rw [List.countP_eq_zero]
    intro a ha hpa
    obtain ⟨m, hma⟩ := List.mem_iff_get.mp ha
    apply hx
    apply hdc (L.get ⟨k, hk⟩) a ?_ hpa
    rw [← hma]
    have hdlen := List.length_drop k L
    have hmlt : k + m.val < L.length := by
      have h3 := m.isLt
      omega
    have hget : (L.drop k).get m = L.get ⟨k + m.val, hmlt⟩ := by
      simp [List.get_eq_getElem, List.getElem_drop]
    rw [hget]
    exact hs.rel_get_of_le (by simp [Fin.le_def])
  omega

theorem le_countP_of_sorted {L : List ℚ} {p : ℚ → Bool} {k : ℕ}
    (hs : L.Sorted (fun a b : ℚ => a ≤ b)) (hk : k < L.length)
    (hdc : ∀ a b : ℚ, a ≤ b → p b = true → p a = true)
    (hx : p (L.get ⟨k, hk⟩) = true) : k + 1 ≤ L.countP p := by
  have hsplit : L.countP p = (L.take (k + 1)).countP p + (L.drop (k + 1)).countP p := by
    conv_lhs => rw [← List.take_append_drop (k + 1) L]
    rw [List.countP_append]
  have hlen : (L.take (k + 1)).length = k + 1 := by
    rw [List.length_take]
    omega
  have h1 : (L.take (k + 1)).countP p = (L.take (k + 1)).length := by
    rw [List.countP_eq_length]
    intro a ha
    obtain ⟨m, hma⟩ := List.mem_iff_get.mp ha
    have hmlt : m.val < L.length := by
      have h3 := m.isLt
      omega
    have hget : (L.take (k + 1)).get m = L.get ⟨m.val, hmlt⟩ := by
      simp [List.get_eq_getElem, List.getElem_take]
    apply hdc a (L.get ⟨k, hk⟩) ?_ hx
    rw [← hma, hget]
    apply hs.rel_get_of_le
    simp only [Fin.le_def]
    have h3 := m.isLt
    omega
  omega

theorem two_le_countP_of_two {α : Type} {l : List α} {p : α → Bool} {i j : ℕ}
    (hij : i < j) (hj : j < l.length)
    (hpi : p (l.get ⟨i, Nat.lt_trans hij hj⟩) = true)
    (hpj : p (l.get ⟨j, hj⟩) = true) : 2 ≤ l.countP p := by
  have hsplit : l.countP p = (l.take (i + 1)).countP p + (l.drop (i + 1)).countP p := by
    conv_lhs => rw [← List.take_append_drop (i + 1) l]
    rw [List.countP_append]
  have hi : i < l.length := Nat.lt_trans hij hj
  have hlen : (l.take (i + 1)).length = i + 1 := by
    rw [List.length_take]
    omega
  have hdlen := List.length_drop (i + 1) l
  have h1 : 0 < (l.take (i + 1)).countP p := by
    rw [List.countP_pos_iff]
    refine ⟨l.get ⟨i, hi⟩, ?_, hpi⟩
    apply List.mem_iff_get.mpr
    refine ⟨⟨i, by omega⟩, ?_⟩
    simp [List.get_eq_getElem, List.getElem_take]
  have h2 : 0 < (l.drop (i + 1)).countP p := by
    rw [List.countP_pos_iff]
    refine ⟨l.get ⟨j, hj⟩, ?_, hpj⟩
    apply List.mem_iff_get.mpr
    refine ⟨⟨j - (i + 1), by omega⟩, ?_⟩
    simp only [List.get_eq_getElem, List.getElem_drop]
    congr 1
    omega
  omega

theorem exists_two_of_two_le_countP {α : Type} :
    ∀ {l : List α} {p : α → Bool}, 2 ≤ l.countP p →
      ∃ (i : ℕ) (j : ℕ) (hij : i < j) (hj : j < l.length),
        p (l.get ⟨i, Nat.lt_trans hij hj⟩) = true ∧ p (l.get ⟨j, hj⟩) = true := by
  intro l
  induction l with
  | nil => intro p h; simp [List.countP_nil] at h
  | cons a rest ih =>
    intro p h
    rw [List.countP_cons] at h
    by_cases hpa : p a = true
    · have h1 : 1 ≤ rest.countP p := by
        simp only [hpa, if_true] at h
        omega
      have h2 : 0 < rest.countP p := h1
      rw [List.countP_pos_iff] at h2
      obtain ⟨b, hb, hpb⟩ := h2
      obtain ⟨m, hmb⟩ := List.mem_iff_get.mp hb
      have hmlt : m.val + 1 < (a :: rest).length := by
        have h3 := m.isLt
        simp only [List.length_cons]
        omega
      refine ⟨0, m.val + 1, Nat.succ_pos m.val, hmlt, hpa, ?_⟩
      have hred : (a :: rest).get ⟨m.val + 1, hmlt⟩ = rest.get ⟨m.val, m.isLt⟩ := rfl
      rw [hred]
      have hfin : (⟨m.val, m.isLt⟩ : Fin rest.length) = m := rfl
      rw [hfin, hmb]
      exact hpb
    · have h2 : 2 ≤ rest.countP p := by
        simp only [hpa, if_false] at h
        simpa using h
      obtain ⟨i, j, hij, hj, hp1, hp2⟩ := ih h2
      have hj2 : j + 1 < (a :: rest).length := by
        simp only [List.length_cons]
        omega
      refine ⟨i + 1, j + 1, Nat.succ_lt_succ hij, hj2, ?_, ?_⟩
      · have hred : (a :: rest).get ⟨i + 1, Nat.lt_trans (Nat.succ_lt_succ hij) hj2⟩ =
            rest.get ⟨i, Nat.lt_trans hij hj⟩ := rfl
        rw [hred]
        exact hp1
      · have hred : (a :: rest).get ⟨j + 1, hj2⟩ = rest.get ⟨j, hj⟩ := rfl
        rw [hred]
        exact hp2

theorem countP_split {α : Type} (p q : α → Bool) :
    ∀ (l : List α), (∀ a ∈ l, q a = true → p a = true) →
      l.countP p = l.countP q + l.countP (fun a => p a && !q a) := by
  intro l
  induction l with
  | nil => intro _; simp
  | cons a rest ih =>
    intro h
    have hrest := ih (fun b hb => h b (List.mem_cons_of_mem a hb))
    simp only [List.countP_cons, hrest]
    by_cases hq : q a = true
    · have hp := h a (List.mem_cons_self a rest) hq
      simp [hp, hq]
      omega
    · have hq2 : q a = false := by
        cases hqa : q a
        · rfl
        · exact absurd hqa hq
      by_cases hp : p a = true
      · simp [hp, hq2]
        omega
      · have hp2 : p a = false := by
          cases hpa : p a
          · rfl
          · exact absurd hpa hp
        simp [hp2, hq2]

theorem overlapErr_true_iff {intervals : List (ℚ × ℚ)} :
    overlapErr intervals = true ↔
      ∃ (idx : ℕ) (h1 : idx + 1 < (sortedLows intervals).length)
        (h2 : idx < (sortedHighs intervals).length),
        (sortedLows intervals).get ⟨idx + 1, h1⟩ ≤
          (sortedHighs intervals).get ⟨idx, h2⟩ := by
  rw [overlapErr, List.any_eq_true]
  have hzlen : ((sortedHighs intervals).zip (sortedLows intervals).tail).length =
      min (sortedHighs intervals).length ((sortedLows intervals).tail.length) :=
    List.length_zip _ _
  have htlen : ((sortedLows intervals).tail).length =
      (sortedLows intervals).length - 1 := List.length_tail _
  constructor
  · rintro ⟨pair, hmem, hp⟩
    simp only [decide_eq_true_eq] at hp
    obtain ⟨m, hmp⟩ := List.mem_iff_get.mp hmem
    have hm := m.isLt
    have h2 : m.val < (sortedHighs intervals).length := by omega
    have h1 : m.val + 1 < (sortedLows intervals).length := by omega
    refine ⟨m.val, h1, h2, ?_⟩
    have hget := @List.get_zip ℚ ℚ (sortedHighs intervals)
      ((sortedLows intervals).tail) m
    rw [hmp] at hget
    have htget : ((sortedLows intervals).tail).get ⟨m.val, by omega⟩ =
        (sortedLows intervals).get ⟨m.val + 1, h1⟩ := by
      simp [List.get_eq_getElem, List.getElem_tail]
    have hfst : pair.1 = (sortedHighs intervals).get ⟨m.val, h2⟩ := by
      rw [hget]
    have hsnd : pair.2 = (sortedLows intervals).get ⟨m.val + 1, h1⟩ := by
      rw [hget]
      exact htget
    rw [← hfst, ← hsnd]
    exact hp
  · rintro ⟨idx, h1, h2, hle⟩
    have hzb : idx < ((sortedHighs intervals).zip (sortedLows intervals).tail).length := by
      omega
    refine ⟨((sortedHighs intervals).zip (sortedLows intervals).tail).get ⟨idx, hzb⟩,
      List.get_mem _ _ _, ?_⟩
    have hget := @List.get_zip ℚ ℚ (sortedHighs intervals)
      ((sortedLows intervals).tail) ⟨idx, hzb⟩
    rw [hget]
    simp only [decide_eq_true_eq]
    have htget : ((sortedLows intervals).tail).get ⟨idx, by omega⟩ =
        (sortedLows intervals).get ⟨idx + 1, h1⟩ := by
      simp [List.get_eq_getElem, List.getElem_tail]
    rw [htget]
    exact hle

theorem overlapErr_iff {intervals : List (ℚ × ℚ)}
    (hwf : ∀ iv ∈ intervals, iv.1 ≤ iv.2) :
    overlapErr intervals = true ↔
      ∃ (i : ℕ) (j : ℕ) (hij : i < j) (hj : j < intervals.length),
        intervalsOverlap (intervals.get ⟨i, Nat.lt_trans hij hj⟩)
          (intervals.get ⟨j, hj⟩) := by
  have hSlen : (sortedLows intervals).length = intervals.length := by
    rw [sortedLows, List.length_insertionSort, List.length_map]
  have hElen : (sortedHighs intervals).length = intervals.length := by
    rw [sortedHighs, List.length_insertionSort, List.length_map]
  have hSsorted : (sortedLows intervals).Sorted (fun a b : ℚ => a ≤ b) :=
    List.sorted_insertionSort _ _
  have hEsorted : (sortedHighs intervals).Sorted (fun a b : ℚ => a ≤ b) :=
    List.sorted_insertionSort _ _
  have hScount : ∀ x : ℚ, (sortedLows intervals).countP (fun a => decide (a ≤ x)) =
      intervals.countP (fun iv => decide (iv.1 ≤ x)) := by
    intro x
    rw [sortedLows, (List.perm_insertionSort _ _).countP_eq, List.countP_map]
    rfl
  have hEcount : ∀ x : ℚ, (sortedHighs intervals).countP (fun a => decide (a < x)) =
      intervals.countP (fun iv => decide (iv.2 < x)) := by
    intro x
    rw [sortedHighs, (List.perm_insertionSort _ _).countP_eq, List.countP_map]
    rfl
  constructor
  · intro herr
    obtain ⟨idx, h1, h2, hle⟩ := overlapErr_true_iff.mp herr
    set y := (sortedHighs intervals).get ⟨idx, h2⟩ with hy
    have hdcle : ∀ u v : ℚ, u ≤ v → decide (v ≤ y) = true → decide (u ≤ y) = true := by
      intro u v huv hv
      simp only [decide_eq_true_eq] at hv ⊢
      linarith
    have hdclt : ∀ u v : ℚ, u ≤ v → decide (v < y) = true → decide (u < y) = true := by
      intro u v huv hv
      simp only [decide_eq_true_eq] at hv ⊢
      linarith
    have hA : idx + 1 + 1 ≤ (sortedLows intervals).countP (fun a => decide (a ≤ y)) :=
      le_countP_of_sorted hSsorted h1 hdcle (by simpa using hle)
    have hB : (sortedHighs intervals).countP (fun a => decide (a < y)) ≤ idx :=
      countP_le_of_sorted_not hEsorted h2 hdclt (by
        simp only [decide_eq_true_eq, not_lt]
        exact le_of_eq hy)
    have hA2 : idx + 2 ≤ intervals.countP (fun iv => decide (iv.1 ≤ y)) := by
      rw [← hScount]
      omega
    have hB2 : intervals.countP (fun iv => decide (iv.2 < y)) ≤ idx := by
      rw [← hEcount]
      exact hB
    have hsplit : intervals.countP (fun iv : ℚ × ℚ => decide (iv.1 ≤ y)) =
        intervals.countP (fun iv : ℚ × ℚ => decide (iv.2 < y)) +
          intervals.countP (fun iv : ℚ × ℚ => decide (iv.1 ≤ y) && !decide (iv.2 < y)) :=
      countP_split (fun iv : ℚ × ℚ => decide (iv.1 ≤ y))
        (fun iv : ℚ × ℚ => decide (iv.2 < y)) intervals
        (fun iv hiv hq => by
          simp only [decide_eq_true_eq] at hq ⊢
          have := hwf iv hiv
          linarith)
    have hC : 2 ≤ intervals.countP
        (fun iv : ℚ × ℚ => decide (iv.1 ≤ y) && !decide (iv.2 < y)) := by
      omega
    obtain ⟨i, j, hij, hj, hp1, hp2⟩ := exists_two_of_two_le_countP hC
    simp only [Bool.and_eq_true, Bool.not_eq_eq_eq_not, Bool.not_true,
      decide_eq_true_eq, decide_eq_false_iff_not, not_lt] at hp1 hp2
    refine ⟨i, j, hij, hj, ?_, ?_⟩
    · exact le_trans hp1.1 hp2.2
    · exact le_trans hp2.1 hp1.2
  · intro hov
    by_contra herr
    have hEidx : ∀ (idx : ℕ) (h1 : idx + 1 < (sortedLows intervals).length)
        (h2 : idx < (sortedHighs intervals).length),
        ¬((sortedLows intervals).get ⟨idx + 1, h1⟩ ≤
          (sortedHighs intervals).get ⟨idx, h2⟩) := by
      intro idx h1 h2 hcon
      exact herr (overlapErr_true_iff.mpr ⟨idx, h1, h2, hcon⟩)
    obtain ⟨i, j, hij, hj, hovl⟩ := hov
    have hi : i < intervals.length := Nat.lt_trans hij hj
    set x := max (intervals.get ⟨i, hi⟩).1 (intervals.get ⟨j, hj⟩).1 with hx
    have hdcle : ∀ u v : ℚ, u ≤ v → decide (v ≤ x) = true → decide (u ≤ x) = true := by
      intro u v huv hv
      simp only [decide_eq_true_eq] at hv ⊢
      linarith
    have hdclt : ∀ u v : ℚ, u ≤ v → decide (v < x) = true → decide (u < x) = true := by
      intro u v huv hv
      simp only [decide_eq_true_eq] at hv ⊢
      linarith
    have h2le : 2 ≤ intervals.countP (fun iv => decide (iv.1 ≤ x)) :=
      two_le_countP_of_two hij hj
        (by
          simp only [decide_eq_true_eq]
          exact le_max_left _ _)
        (by
          simp only [decide_eq_true_eq]
          exact le_max_right _ _)
    have haN : intervals.countP (fun iv => decide (iv.1 ≤ x)) ≤ intervals.length :=
      List.countP_le_length _
    obtain ⟨a2, ha2⟩ : ∃ a2, intervals.countP (fun iv => decide (iv.1 ≤ x)) = a2 + 2 :=
      ⟨intervals.countP (fun iv => decide (iv.1 ≤ x)) - 2, by omega⟩
    have hSa1lt : a2 + 1 < (sortedLows intervals).length := by omega
    have hSa1 : decide ((sortedLows intervals).get ⟨a2 + 1, hSa1lt⟩ ≤ x) = true := by
      by_contra hcon
      have := countP_le_of_sorted_not hSsorted hSa1lt hdcle hcon
      rw [hScount] at this
      omega
    have hEa2lt : a2 < (sortedHighs intervals).length := by omega
    have hElt : (sortedHighs intervals).get ⟨a2, hEa2lt⟩ < x := by
      have hne := hEidx a2 hSa1lt hEa2lt
      have hlt : (sortedHighs intervals).get ⟨a2, hEa2lt⟩ <
          (sortedLows intervals).get ⟨a2 + 1, hSa1lt⟩ := not_le.mp hne
      have hSx : (sortedLows intervals).get ⟨a2 + 1, hSa1lt⟩ ≤ x := by
        simpa using hSa1
      linarith
    have hBge : a2 + 1 ≤ (sortedHighs intervals).countP (fun v => decide (v < x)) :=
      le_countP_of_sorted hEsorted hEa2lt hdclt (by simpa using hElt)
    have hB2 : a2 + 1 ≤ intervals.countP (fun iv => decide (iv.2 < x)) := by
      rw [← hEcount]
      exact hBge
    have hxli : x ≤ (intervals.get ⟨i, hi⟩).2 := by
      apply max_le
      · exact hwf _ (List.get_mem intervals i hi)
      · exact hovl.2
    have hxlj : x ≤ (intervals.get ⟨j, hj⟩).2 := by
      apply max_le
      · exact hovl.1
      · exact hwf _ (List.get_mem intervals j hj)
    have hC2 : 2 ≤ intervals.countP
        (fun iv : ℚ × ℚ => decide (iv.1 ≤ x) && !decide (iv.2 < x)) := by
      apply two_le_countP_of_two hij hj
      · simp only [Bool.and_eq_true, Bool.not_eq_eq_eq_not, Bool.not_true,
          decide_eq_true_eq, decide_eq_false_iff_not, not_lt]
        exact ⟨le_max_left _ _, hxli⟩
      · simp only [Bool.and_eq_true, Bool.not_eq_eq_eq_not, Bool.not_true,
          decide_eq_true_eq, decide_eq_false_iff_not, not_lt]
        exact ⟨le_max_right _ _, hxlj⟩
    have hsplit : intervals.countP (fun iv : ℚ × ℚ => decide (iv.1 ≤ x)) =
        intervals.countP (fun iv : ℚ × ℚ => decide (iv.2 < x)) +
          intervals.countP (fun iv : ℚ × ℚ => decide (iv.1 ≤ x) && !decide (iv.2 < x)) :=
      countP_split (fun iv : ℚ × ℚ => decide (iv.1 ≤ x))
        (fun iv : ℚ × ℚ => decide (iv.2 < x)) intervals
        (fun iv hiv hq => by
          simp only [decide_eq_true_eq] at hq ⊢
          have := hwf iv hiv
          linarith)
    omega

/-- C1 counterexample: constructing a `PhaseMap` from two overlapping phase
intervals `a = [0, 5]`, `b = [3, 8]` succeeds — `PhaseMap.__init__` performs no
overlap check and records the overlapping phases verbatim — even though the
intervals overlap, i.e. exactly the configuration `SimParam`'s construction
check rejects. -/
theorem claim_C1_counterexample :
    (PhaseMap.ofTuples [("a", 0, 5), ("b", 3, 8)] [] 1).phases =
      [("a", 0, 5), ("b", 3, 8)] ∧
    intervalsOverlap ((0 : ℚ), (5 : ℚ)) ((3 : ℚ), (8 : ℚ)) ∧
    (∃ e, find_any_phase_overlap [("a", 0, 5), ("b", 3, 8)] = Except.error e) := by
  refine ⟨?_, ?_, ?_⟩
  · norm_num [PhaseMap.ofTuples, dictOfList, dictUpdate, (by simp : ¬("a" = "b"))]
  · norm_num [intervalsOverlap]
  · refine ⟨"Global phases overlap", ?_⟩
    norm_num [find_any_phase_overlap, overlapErr, sortedLows, sortedHighs,
      dictOfList, dictUpdate, List.insertionSort, List.orderedInsert,
      (by simp : ¬("a" = "b"))]

/-- C1 amended: `PhaseMap` construction itself never fails and performs no
overlap check (it records the given phases, modephases and timestep); the
construction-time overlap check lives in `SimParam.__init__`, which (for
distinctly named, well-formed phases) raises exactly when two of the declared
phase intervals overlap (touching endpoints included), before any
simulation. -/
theorem claim_C1_amended :
    (∀ (tuples : List (String × ℚ × ℚ)) (mps : List (String × List String)) (d : ℚ),
      (PhaseMap.ofTuples tuples mps d).phases = dictOfList tuples ∧
      (PhaseMap.ofTuples tuples mps d).modephases = mps ∧
      (PhaseMap.ofTuples tuples mps d).dt = d) ∧
    (∀ (phases : List (String × ℚ × ℚ)) (times : List ℚ) (d : ℚ),
      (phases.map (fun p => p.1)).Nodup →
      (∀ p ∈ phases, p.2.1 ≤ p.2.2) →
      ((∃ e, SimParam.init phases times d = Except.error e) ↔
        ∃ (i : ℕ) (j : ℕ) (hij : i < j) (hj : j < phases.length),
          intervalsOverlap (phases.get ⟨i, Nat.lt_trans hij hj⟩).2
            (phases.get ⟨j, hj⟩).2)) := by
  constructor
  · intro tuples mps d
    exact ⟨rfl, rfl, rfl⟩
  · intro phases times d hnd hwf
    have hdict : dictOfList phases = phases := dictOfList_nodup hnd
    have key : (∃ e, SimParam.init phases times d = Except.error e) ↔
        overlapErr (phases.map (fun p => p.2)) = true := by
      rw [SimParam.init, find_any_phase_overlap, hdict]
      by_cases hb : overlapErr (phases.map (fun p => p.2)) = true
      · simp [hb]
      · simp [hb]
    rw [key]
    have hwf2 : ∀ iv ∈ phases.map (fun p => p.2), iv.1 ≤ iv.2 := by
      intro iv hiv
      obtain ⟨p, hp, rfl⟩ := List.mem_map.mp hiv
      exact hwf p hp
    rw [overlapErr_iff hwf2]
    have hmlen : (phases.map (fun p => p.2)).length = phases.length :=
      List.length_map _ _
    constructor
    · rintro ⟨i, j, hij, hj, hov⟩
      have hj2 : j < phases.length := by omega
      have hi2 : i < phases.length := by omega
      refine ⟨i, j, hij, hj2, ?_, ?_⟩
      · have e1 : (phases.map (fun p => p.2)).get ⟨i, Nat.lt_trans hij hj⟩ =
            (phases.get ⟨i, hi2⟩).2 := by
          simp [List.get_eq_getElem, List.getElem_map]
        have e2 : (phases.map (fun p => p.2)).get ⟨j, hj⟩ =
            (phases.get ⟨j, hj2⟩).2 := by
          simp [List.get_eq_getElem, List.getElem_map]
        rw [← e1, ← e2]
        exact hov.1
      · have e1 : (phases.map (fun p => p.2)).get ⟨i, Nat.lt_trans hij hj⟩ =
            (phases.get ⟨i, hi2⟩).2 := by
          simp [List.get_eq_getElem, List.getElem_map]
        have e2 : (phases.map (fun p => p.2)).get ⟨j, hj⟩ =
            (phases.get ⟨j, hj2⟩).2 := by
          simp [List.get_eq_getElem, List.getElem_map]
        rw [← e1, ← e2]
        exact hov.2
    · rintro ⟨i, j, hij, hj, hov⟩
      have hj2 : j < (phases.map (fun p => p.2)).length := by omega
      have hi2 : i < phases.length := Nat.lt_trans hij hj
      refine ⟨i, j, hij, hj2, ?_, ?_⟩
      · have e1 : (phases.map (fun p => p.2)).get ⟨i, Nat.lt_trans hij hj2⟩ =
            (phases.get ⟨i, hi2⟩).2 := by
          simp [List.get_eq_getElem, List.getElem_map]
        have e2 : (phases.map (fun p => p.2)).get ⟨j, hj2⟩ =
            (phases.get ⟨j, hj⟩).2 := by
          simp [List.get_eq_getElem, List.getElem_map]
        rw [e1, e2]
        exact hov.1
      · have e1 : (phases.map (fun p => p.2)).get ⟨i, Nat.lt_trans hij hj2⟩ =
            (phases.get ⟨i, hi2⟩).2 := by
          simp [List.get_eq_getElem, List.getElem_map]
        have e2 : (phases.map (fun p => p.2)).get ⟨j, hj2⟩ =
            (phases.get ⟨j, hj⟩).2 := by
          simp [List.get_eq_getElem, List.getElem_map]
        rw [e1, e2]
        exact hov.2

/-- Witness for the amended C1: `SimParam` construction over the overlapping
phases `a = [0, 5]`, `b = [3, 8]` raises. -/
theorem claim_C1_witness :
    ∃ e, SimParam.init [("a", (0 : ℚ), (5 : ℚ)), ("b", 3, 8)] [] 1 =
      Except.error e :=
  (claim_C1_amended.2 [("a", 0, 5), ("b", 3, 8)] [] 1
    (by simp)
    (by
      intro p hp
      simp only [List.mem_cons, List.not_mem_nil, or_false] at hp
      rcases hp with rfl | rfl <;> norm_num)).mpr
    ⟨0, 1, Nat.zero_lt_one, by norm_num,
      by norm_num [intervalsOverlap, List.get_eq_getElem]⟩

/-- C10: for a freshly constructed Timer (`time = 0.0`, `mode = 'standby'`)
and any sequence of default `inc()` and `reset()` calls, `time` stays
non-negative after every call; and whenever `inc()` drives the time to or
below zero (the pre-clamp value `time + tstep` is not positive), the time is
clamped to exactly `0.0` and the mode becomes `'complete'`. -/
theorem claim_C10 :
    (∀ ops : List TimerOp, 0 ≤ (runTimer ops Timer.init).time) ∧
    (∀ t : Timer, 0 ≤ t.time → t.time + t.tstep ≤ 0 →
      (t.inc none).time = 0 ∧ (t.inc none).mode = "complete") := by
  constructor
  · intro ops
    exact runTimer_nonneg ops Timer.init (le_refl 0)
  · intro t h0 hneg
    unfold Timer.inc
    rw [if_pos h0]
    simp only []
    rw [if_pos hneg]
    exact ⟨rfl, rfl⟩

/-- Witness for C10: the fresh timer satisfies both hypotheses of the clamping
clause (default countdown step `-1`), and the invariant clause at a two-call
sequence. -/
theorem claim_C10_witness :
    (0 ≤ (runTimer [TimerOp.inc, TimerOp.inc] Timer.init).time) ∧
    ((Timer.init.inc none).time = 0 ∧ (Timer.init.inc none).mode = "complete") :=
  ⟨claim_C10.1 [TimerOp.inc, TimerOp.inc],
   claim_C10.2 Timer.init (le_refl 0) (by norm_num [Timer.init])⟩

end Fmd
